import Mathlib

/-!
Verification of `memkv` (`store.go`): an in-memory key/value store keyed by
path-like strings, with glob retrieval (`GetAll`, via Go's `filepath.Match`)
and hierarchical listing (`List`, `ListDir`).

Modelling conventions:
* Go strings are modelled as `List Char` (`GoStr`); Go's byte-wise
  lexicographic string order coincides with code-point order, which is the
  `LinearOrder` on `List Char`.
* The Go map `map[string]KVPair` is modelled as an association list
  `List (GoStr × KVPair)`, preserving the duplication between the map key and
  the record's `Key` field.  Go map iteration order is unspecified; every
  iteration in `store.go` is order-insensitive in its observable result
  (results are sorted, errors are unique, panics depend only on membership).
* Locks (`sync.RWMutex`) are erased: each operation is a pure function of the
  store state.
* A Go runtime panic (slice out of range) is modelled as `Option.none`.
-/

namespace Memkv

/-- A Go string, as its sequence of characters. -/
abbrev GoStr := List Char

/-- Convert a Lean string literal to a `GoStr`. -/
def str (s : String) : GoStr := s.toList

/-- The path separator, `filepath.Separator` on Unix. -/
def sep : Char := '/'

/-- The errors appearing in `store.go`: `ErrNotExist`, `ErrNoMatch` (package
`memkv`) and `filepath.ErrBadPattern` (propagated from `filepath.Match`). -/
inductive GoErr where
  | errNotExist
  | errNoMatch
  | errBadPattern
deriving DecidableEq, Repr

/-- The record type stored in the map.  Modelled from the spec: the file
declaring `KVPair` (`types.go`) is not in `src/`; `store.go` constructs it
positionally as `KVPair{key, value}` and reads fields `kv.Key`, `kv.Value`,
and the spec describes it as `{ key: string, value: string }`. -/
structure KVPair where
  Key : GoStr
  Value : GoStr
deriving DecidableEq, Repr

/-- The Go zero value `KVPair{}`. -/
instance : Inhabited KVPair := ⟨⟨[], []⟩⟩

/-- The store: `map[string]KVPair`, as an association list from map key to
record. -/
structure Store where
  m : List (GoStr × KVPair)
deriving DecidableEq, Repr

/-- `New` creates and initializes a new `Store` (empty map). -/
def New : Store := ⟨[]⟩

/-- Go map assignment `m[key] = kv`: replace the entry if the key is present,
otherwise add a new entry. -/
def mapInsert (m : List (GoStr × KVPair)) (key : GoStr) (kv : KVPair) :
    List (GoStr × KVPair) :=
  match m with
  | [] => [(key, kv)]
  | e :: rest => if e.1 = key then (key, kv) :: rest else e :: mapInsert rest key kv

/-- Go map read `kv, ok := m[key]`. -/
def mapLookup (m : List (GoStr × KVPair)) (key : GoStr) : Option KVPair :=
  match m with
  | [] => none
  | e :: rest => if e.1 = key then some e.2 else mapLookup rest key

/-- `Set` sets the `KVPair` entry associated with `key` to `value`:
`s.m[key] = KVPair{key, value}`. -/
def Store.Set (s : Store) (key value : GoStr) : Store :=
  ⟨mapInsert s.m key ⟨key, value⟩⟩

/-- `Del` deletes the `KVPair` associated with `key`: `delete(s.m, key)`. -/
def Store.Del (s : Store) (key : GoStr) : Store :=
  ⟨s.m.filter fun e => decide (e.1 ≠ key)⟩

/-- `Get` gets the `KVPair` associated with `key`; if absent it returns the
zero value `KVPair{}` together with `ErrNotExist`. -/
def Store.Get (s : Store) (key : GoStr) : KVPair × Option GoErr :=
  match mapLookup s.m key with
  | some kv => (kv, none)
  | none => (⟨[], []⟩, some .errNotExist)

/-!
### Go's `path/filepath.Match`

Translated from the Go standard library source (`path/filepath/match.go`,
Unix build: `Separator = '/'`, no Windows special-casing).  Character
decoding (`utf8.DecodeRuneInString`) is taking the head of the character
list in this model.  `Match` documents `ErrBadPattern` as its only possible
error, so error results are modelled as `none` / dedicated constructors.
The loops of `matchRanges` and the chunk loop consume at least one pattern
character per iteration, so they are written with a `Nat` fuel initialized
to `length + 1`, which is never exhausted.
-/

/-- Result of `matchChunk`: `ErrBadPattern`, a failed match, or a successful
match returning the unconsumed rest of the name. -/
inductive ChunkRes where
  | bad
  | nomatch
  | matched (rest : GoStr)
deriving DecidableEq, Repr

/-- `getEsc` gets a possibly-escaped character from the chunk, for a
character-class range (Go `path/filepath.getEsc`; `none` is `ErrBadPattern`,
raised on an empty chunk, a leading `-` or `]`, a trailing backslash, or a
class that ends right after the range character). -/
def getEsc : GoStr → Option (Char × GoStr)
  | [] => none
  | c :: rest =>
    if c = '-' ∨ c = ']' then none
    else if c = '\\' then
      match rest with
      | [] => none
      | c2 :: rest2 => if rest2.isEmpty then none else some (c2, rest2)
    else if rest.isEmpty then none else some (c, rest)

/-- The range-parsing loop of the `[` case of `matchChunk`: parses
`lo`(-`hi`) ranges until the closing `]`, recording whether rune `r` fell in
some range.  Returns the match flag and the chunk after `]`. -/
def matchRangesFuel : Nat → Char → Bool → Nat → GoStr → Option (Bool × GoStr)
  | 0, _, _, _, _ => none
  | fuel + 1, r, matched, nrange, chunk =>
    if chunk.head? = some ']' ∧ 0 < nrange then some (matched, chunk.tail)
    else
      match getEsc chunk with
      | none => none
      | some (lo, chunk1) =>
        match (if chunk1.head? = some '-' then getEsc chunk1.tail else some (lo, chunk1)) with
        | none => none
        | some (hi, chunk2) =>
          matchRangesFuel fuel r (matched || (decide (lo ≤ r) && decide (r ≤ hi)))
            (nrange + 1) chunk2

/-- `matchChunk` checks whether `chunk` matches the beginning of `s`
(Go `path/filepath.matchChunk`).  The `failed` flag records a mismatch whose
reporting is delayed so that pattern errors further along the chunk are still
detected, exactly as in the Go source. -/
def matchChunkFuel : Nat → Bool → GoStr → GoStr → ChunkRes
  | 0, _, _, _ => .bad
  | fuel + 1, failed0, chunk, s =>
    match chunk with
    | [] => if failed0 then .nomatch else .matched s
    | c :: chunkRest =>
      let failed := failed0 || s.isEmpty
      if c = '[' then
        let r : Char := if failed then Char.ofNat 0 else s.headD (Char.ofNat 0)
        let s1 : GoStr := if failed then s else s.tail
        let negated : Bool := decide (chunkRest.head? = some '^')
        let chunk1 := if negated then chunkRest.tail else chunkRest
        match matchRangesFuel (chunk1.length + 1) r false 0 chunk1 with
        | none => .bad
        | some (m, chunk2) => matchChunkFuel fuel (failed || (m == negated)) chunk2 s1
      else if c = '?' then
        if failed then matchChunkFuel fuel failed chunkRest s
        else matchChunkFuel fuel (decide (s.head? = some sep)) chunkRest s.tail
      else if c = '\\' then
        match chunkRest with
        | [] => .bad
        | c2 :: chunkRest2 =>
          if failed then matchChunkFuel fuel failed chunkRest2 s
          else matchChunkFuel fuel (decide (s.head? ≠ some c2)) chunkRest2 s.tail
      else
        if failed then matchChunkFuel fuel failed chunkRest s
        else matchChunkFuel fuel (decide (s.head? ≠ some c)) chunkRest s.tail

/-- The star-consuming prefix of `scanChunk`. -/
def scanStars : GoStr → Bool × GoStr
  | [] => (false, [])
  | c :: rest => if c = '*' then (true, (scanStars rest).2) else (false, c :: rest)

/-- The `Scan` loop of `scanChunk`: split off the chunk up to (but excluding)
the next `*` that is outside a character class; a backslash escapes the
following character. -/
def scanChunkAux : Bool → GoStr → GoStr × GoStr
  | _, [] => ([], [])
  | inrange, c :: rest =>
    if c = '\\' then
      match rest with
      | [] => ([c], [])
      | c2 :: rest2 =>
        let p := scanChunkAux inrange rest2
        (c :: c2 :: p.1, p.2)
    else if c = '[' then
      let p := scanChunkAux true rest
      (c :: p.1, p.2)
    else if c = ']' then
      let p := scanChunkAux false rest
      (c :: p.1, p.2)
    else if c = '*' ∧ inrange = false then ([], c :: rest)
    else
      let p := scanChunkAux inrange rest
      (c :: p.1, p.2)

/-- `scanChunk` gets the next segment of `pattern`: a non-star chunk possibly
preceded by stars (Go `path/filepath.scanChunk`). -/
def scanChunk (pattern : GoStr) : Bool × GoStr × GoStr :=
  let s := scanStars pattern
  let p := scanChunkAux false s.2
  (s.1, p.1, p.2)

/-- Result of the star loop in `Match`: `ErrBadPattern`, overall failure, or
continuation of the outer loop with a new name. -/
inductive StarRes where
  | bad
  | fail
  | cont (t : GoStr)
deriving DecidableEq, Repr

/-- The star loop of `Match`: skip `i+1` leading non-separator bytes of the
name and retry the chunk; when the remaining pattern is empty the chunk must
also exhaust the name. -/
def tryStar (chunk rest : GoStr) : GoStr → StarRes
  | [] => .fail
  | c :: nameRest =>
    if c = sep then .fail
    else
      match matchChunkFuel (chunk.length + 1) false chunk nameRest with
      | .matched t =>
        if rest.isEmpty && !t.isEmpty then tryStar chunk rest nameRest else .cont t
      | .nomatch => tryStar chunk rest nameRest
      | .bad => .bad

/-- The final validity loop of `Match` (Go ≥ 1.16): before returning `false`
with no error, scan every chunk of the remaining pattern and check it against
the empty name, so that a syntactically invalid remainder still reports
`ErrBadPattern`.  Each iteration strictly consumes the pattern, so
`pattern.length + 1` fuel is never exhausted. -/
def validateRest : Nat → GoStr → Option Bool
  | 0, _ => none
  | fuel + 1, pattern =>
    match pattern with
    | [] => some false
    | c :: ps =>
      let scr := scanChunk (c :: ps)
      let chunk := scr.2.1
      let rest := scr.2.2
      match matchChunkFuel (chunk.length + 1) false chunk [] with
      | .bad => none
      | _ => validateRest fuel rest

/-- The outer `Pattern` loop of `Match`.  Every `return false, nil` point of
the Go loop first runs the remainder-validity check (`validateRest`).  The
pattern strictly shrinks on every recursive call, so `pattern.length + 1`
fuel is never exhausted. -/
def matchFuel : Nat → GoStr → GoStr → Option Bool
  | 0, _, _ => none
  | fuel + 1, pattern, name =>
    match pattern with
    | [] => some name.isEmpty
    | c :: ps =>
      let scr := scanChunk (c :: ps)
      let star := scr.1
      let chunk := scr.2.1
      let rest := scr.2.2
      if star && chunk.isEmpty then some (!name.contains sep)
      else
        match matchChunkFuel (chunk.length + 1) false chunk name with
        | .matched t =>
          if t.isEmpty || !rest.isEmpty then matchFuel fuel rest t
          else if star then
            match tryStar chunk rest name with
            | .bad => none
            | .fail => validateRest (rest.length + 1) rest
            | .cont t2 => matchFuel fuel rest t2
          else validateRest (rest.length + 1) rest
        | .nomatch =>
          if star then
            match tryStar chunk rest name with
            | .bad => none
            | .fail => validateRest (rest.length + 1) rest
            | .cont t2 => matchFuel fuel rest t2
          else validateRest (rest.length + 1) rest
        | .bad => none

/-- Go's `path/filepath.Match(pattern, name)`.  `some b` is `(b, nil)`;
`none` is `(false, ErrBadPattern)`, the only possible error. -/
def Match (pattern name : GoStr) : Option Bool :=
  matchFuel (pattern.length + 1) pattern name

/-!
### `GetAll`, `GetAllValues`, `List`, `ListDir`
-/

/-- The `Less` relation of `KVPairs` used by `sort.Sort`.  Modelled from the
spec: the file declaring `KVPairs` and its `sort.Interface` methods is not in
`src/`; the spec says `GetAll` returns records "sorted by key in ascending
lexicographic (byte-wise) order". -/
def keyLe (a b : KVPair) : Prop := a.Key ≤ b.Key

instance : DecidableRel keyLe := fun a b => inferInstanceAs (Decidable (a.Key ≤ b.Key))

instance : IsTotal KVPair keyLe := ⟨fun a b => le_total a.Key b.Key⟩

instance : IsTrans KVPair keyLe := ⟨fun _ _ _ hab hbc => le_trans hab hbc⟩

/-- `sort.Sort(ks)` for `KVPairs`: a sorted permutation w.r.t. `keyLe`. -/
def sortKVPairs (ks : List KVPair) : List KVPair := List.insertionSort keyLe ks

/-- The scan loop of `GetAll`: test every entry's key against the pattern,
aborting with the matcher's error (`ErrBadPattern`) as soon as one occurs,
and collect the matching records in iteration order. -/
def getAllScan (pattern : GoStr) : List (GoStr × KVPair) → Except GoErr (List KVPair)
  | [] => .ok []
  | e :: rest =>
    match Match pattern e.2.Key with
    | none => .error .errBadPattern
    | some m =>
      match getAllScan pattern rest with
      | .error err => .error err
      | .ok ks => .ok (if m then e.2 :: ks else ks)

/-- `GetAll` returns a `KVPair` for all nodes with keys matching `pattern`;
`ErrNoMatch` if the completed scan collected nothing; otherwise the matches
sorted by key. -/
def Store.GetAll (s : Store) (pattern : GoStr) : Except GoErr (List KVPair) :=
  match getAllScan pattern s.m with
  | .error err => .error err
  | .ok ks => if ks.length = 0 then .error .errNoMatch else .ok (sortKVPairs ks)

/-- `GetAllValues`: projects `GetAll` to values; on any failure it returns
the (still empty) freshly-made slice `vs` alongside the error. -/
def Store.GetAllValues (s : Store) (pattern : GoStr) : List GoStr × Option GoErr :=
  match s.GetAll pattern with
  | .error err => ([], some err)
  | .ok ks => (ks.map (fun kv => kv.Value), none)

/-- `strings.TrimPrefix(s', pfx)`. -/
def trimPrefix (s' pfx : GoStr) : GoStr :=
  if pfx.isPrefixOf s' then s'.drop pfx.length else s'

/-- `strings.SplitN(x, "/", 2)[0]`: everything before the first `/`, or all
of `x` when it has no `/`. -/
def splitN2first (x : GoStr) : GoStr := x.takeWhile (fun c => decide (c ≠ sep))

/-- The scan loop of `List`: for every key with `path` as a literal prefix,
take the first segment of `strippedKey[1:]`.  When the stripped key is empty
(the key equals `path`), `strippedKey[1:]` panics in Go with a slice-bounds
error; the panic is modelled as `none`. -/
def listScan (path : GoStr) : List (GoStr × KVPair) → Option (List GoStr)
  | [] => some []
  | e :: rest =>
    if path.isPrefixOf e.2.Key then
      match trimPrefix e.2.Key path with
      | [] => none
      | _ :: t =>
        match listScan path rest with
        | none => none
        | some segs => some (splitN2first t :: segs)
    else listScan path rest

/-- `sort.Strings`: ascending lexicographic sort. -/
def sortStrings (l : List GoStr) : List GoStr := List.insertionSort (fun a b => a ≤ b) l

/-- A `[]string` result.  (Inside `def Store.List`, the bare name `List`
would refer to the function being defined, hence this abbreviation.) -/
abbrev StrSeq := List GoStr

/-- `List(path)`: the distinct first segments under `path`, sorted; `none`
models the Go panic on a key equal to `path`.  The Go set
`m map[string]bool` collapses duplicates, modelled by `dedup`. -/
def Store.List (s : Store) (path : GoStr) : Option StrSeq :=
  (listScan path s.m).map (fun segs => sortStrings segs.dedup)

/-- The scan loop of `ListDir`: as `listScan`, but an entry contributes only
when `strings.SplitN(strippedKey[1:], "/", 2)` has two items, i.e. the
remainder after the skipped character contains a further `/`. -/
def listDirScan (path : GoStr) : List (GoStr × KVPair) → Option (List GoStr)
  | [] => some []
  | e :: rest =>
    if path.isPrefixOf e.2.Key then
      match trimPrefix e.2.Key path with
      | [] => none
      | _ :: t =>
        match listDirScan path rest with
        | none => none
        | some segs => some (if t.contains sep then splitN2first t :: segs else segs)
    else listDirScan path rest

/-- `ListDir(path)`: like `List(path)` restricted to entries with a second
segment; `none` models the same Go panic. -/
def Store.ListDir (s : Store) (path : GoStr) : Option StrSeq :=
  (listDirScan path s.m).map (fun segs => sortStrings segs.dedup)

/-- The first segment assigned to a key `k` reached through prefix `path`,
as the spec describes it: strip the `path` prefix, skip exactly one
character, keep everything before the first remaining `/`. -/
def firstSegAfterSkip (path k : GoStr) : GoStr :=
  ((k.drop path.length).drop 1).takeWhile (fun c => decide (c ≠ sep))

/-- Example store from the spec's `GetAll` property: keys `/a/2`, `/a/1`,
`/a/3`. -/
def exStoreA : Store :=
  ((New.Set (str "/a/2") (str "2")).Set (str "/a/1") (str "1")).Set (str "/a/3") (str "3")

/-- The records `GetAll("/a/*")` returns on `exStoreA`, in sorted key order. -/
def exRecsA : List KVPair :=
  [⟨str "/a/1", str "1"⟩, ⟨str "/a/2", str "2"⟩, ⟨str "/a/3", str "3"⟩]

/-- Example store from the spec's `List`/`ListDir` property: keys
`/app/db/host`, `/app/db/port`, `/app/cache/ttl`, `/app/standalone`. -/
def exStoreB : Store :=
  (((New.Set (str "/app/db/host") (str "h")).Set (str "/app/db/port") (str "p")).Set
      (str "/app/cache/ttl") (str "t")).Set (str "/app/standalone") (str "s")

theorem mapLookup_mapInsert_self (m : List (GoStr × KVPair)) (k : GoStr)
    (kv : KVPair) : mapLookup (mapInsert m k kv) k = some kv := by
  induction m with
  | nil => simp [mapInsert, mapLookup]
  | cons e rest ih =>
    by_cases h : e.1 = k
    · simp [mapInsert, mapLookup, h]
    · simp [mapInsert, mapLookup, h, ih]

theorem mapLookup_filter_ne (m : List (GoStr × KVPair)) (k : GoStr) :
    mapLookup (m.filter fun e => !decide (e.1 = k)) k = none := by
  induction m with
  | nil => simp [mapLookup]
  | cons e rest ih =>
    by_cases h : e.1 = k
    · simpa [h] using ih
    · simp [mapLookup, h, ih]

theorem mapLookup_eq_none_forall {m : List (GoStr × KVPair)} {k : GoStr}
    (h : mapLookup m k = none) : ∀ e ∈ m, e.1 ≠ k := by
  induction m with
  | nil => intro e he; simp at he
  | cons a rest ih =>
    by_cases ha : a.1 = k
    · simp [mapLookup, ha] at h
    · intro e he
      rcases List.mem_cons.mp he with rfl | he'
      · exact ha
      · exact ih (by simpa [mapLookup, ha] using h) e he'

/-- C1: for every key `k`, value `v` and prior store state `s`, after
`Set(k, v)` the operation `Get(k)` returns the record `{key: k, value: v}`
with no error. -/
theorem Get_after_Set (s : Store) (k v : GoStr) :
    (s.Set k v).Get k = (⟨k, v⟩, none) := by
  simp [Store.Get, Store.Set, mapLookup_mapInsert_self]

/-- C7: after `Del(k)`, `Get(k)` fails with `ErrNotExist` (returning the zero
record); `Del` on an absent key leaves the store unchanged, and `Del` is
idempotent.  `Del` cannot fail: it is a total function into `Store`. -/
theorem Del_then_Get_notExist_and_noop (s : Store) (k : GoStr) :
    (s.Del k).Get k = (⟨[], []⟩, some .errNotExist) ∧
    (mapLookup s.m k = none → s.Del k = s) ∧
    (s.Del k).Del k = s.Del k := by
  refine ⟨?_, ?_, ?_⟩
  · simp [Store.Get, Store.Del, mapLookup_filter_ne]
  · intro h
    have hall := mapLookup_eq_none_forall h
    have hf : s.m.filter (fun e => !decide (e.1 = k)) = s.m :=
      List.filter_eq_self.mpr (fun e he => by simp [hall e he])
    calc s.Del k = ⟨s.m⟩ := by simp [Store.Del, hf]
    _ = s := rfl
  · simp [Store.Del, List.filter_filter]

/-- Witness for C7 at a concrete input. -/
theorem Del_then_Get_notExist_and_noop_witness :
    (New.Del (str "/a")).Get (str "/a") = (⟨[], []⟩, some .errNotExist) ∧
    New.Del (str "/a") = New :=
  ⟨(Del_then_Get_notExist_and_noop New (str "/a")).1,
    (Del_then_Get_notExist_and_noop New (str "/a")).2.1 (by decide)⟩

/-- The store invariant: the map key of every entry equals the stored record's
`Key` field. -/
def storeWF (s : Store) : Prop := ∀ e ∈ s.m, e.2.Key = e.1

theorem mem_mapInsert {m : List (GoStr × KVPair)} {k : GoStr} {kv : KVPair}
    {e : GoStr × KVPair} (h : e ∈ mapInsert m k kv) : e ∈ m ∨ e = (k, kv) := by
  induction m with
  | nil => simpa [mapInsert] using h
  | cons a rest ih =>
    by_cases ha : a.1 = k
    · simp [mapInsert, ha] at h
      rcases h with h | h
      · exact .inr h
      · exact .inl (.tail _ h)
    · simp [mapInsert, ha] at h
      rcases h with h | h
      · exact .inl (by simp [h])
      · rcases ih h with h' | h'
        · exact .inl (.tail _ h')
        · exact .inr h'

/-- C9: the invariant `map[k].key == k` holds in the empty store produced by
`New()` and is preserved by every `Set` and every `Del` (the remaining
operations do not produce a store). -/
theorem storeWF_New_Set_Del :
    storeWF New ∧
    (∀ s k v, storeWF s → storeWF (s.Set k v)) ∧
    (∀ s k, storeWF s → storeWF (s.Del k)) := by
  refine ⟨?_, ?_, ?_⟩
  · intro e he; simp [New] at he
  · intro s k v hs e he
    rcases mem_mapInsert he with h | h
    · exact hs e h
    · simp [h]
  · intro s k hs e he
    exact hs e (List.mem_of_mem_filter he)

/-- Witness for C9 at a concrete input. -/
theorem storeWF_New_Set_Del_witness :
    storeWF New ∧ storeWF (New.Set (str "/a") (str "v")) :=
  ⟨storeWF_New_Set_Del.1,
    storeWF_New_Set_Del.2.1 New (str "/a") (str "v") storeWF_New_Set_Del.1⟩

theorem getAllScan_ok {p : GoStr} {m : List (GoStr × KVPair)} {ks : List KVPair}
    (h : getAllScan p m = .ok ks) :
    ks = (m.map Prod.snd).filter (fun kv => decide (Match p kv.Key = some true)) := by
  induction m generalizing ks with
  | nil =>
    simp [getAllScan] at h
    simp [h]
  | cons e rest ih =>
    rw [getAllScan] at h
    cases h1 : Match p e.2.Key with
    | none => rw [h1] at h; simp at h
    | some b =>
      rw [h1] at h
      cases h2 : getAllScan p rest with
      | error err => rw [h2] at h; simp at h
      | ok ks' =>
        rw [h2] at h
        simp at h
        cases b <;> simp [← h, ih h2, h1]

theorem getAllScan_error_eq {p : GoStr} {m : List (GoStr × KVPair)} {err : GoErr}
    (h : getAllScan p m = .error err) : err = .errBadPattern := by
  induction m with
  | nil => simp [getAllScan] at h
  | cons e rest ih =>
    rw [getAllScan] at h
    cases h1 : Match p e.2.Key with
    | none => rw [h1] at h; simp at h; exact h.symm
    | some b =>
      rw [h1] at h
      cases h2 : getAllScan p rest with
      | error err' =>
        rw [h2] at h; simp at h
        subst h
        exact ih h2
      | ok ks' => rw [h2] at h; simp at h

theorem getAllScan_error_iff {p : GoStr} {m : List (GoStr × KVPair)} :
    getAllScan p m = .error .errBadPattern ↔ ∃ e ∈ m, Match p e.2.Key = none := by
  induction m with
  | nil => simp [getAllScan]
  | cons e rest ih =>
    rw [getAllScan]
    cases h1 : Match p e.2.Key with
    | none =>
      simp only [h1]
      exact ⟨fun _ => ⟨e, List.mem_cons_self e rest, h1⟩, fun _ => trivial⟩
    | some b =>
      simp only [h1]
      cases h2 : getAllScan p rest with
      | error err' =>
        have heq := getAllScan_error_eq h2
        subst heq
        simp only [h2]
        constructor
        · intro _
          obtain ⟨e', he', hm'⟩ := ih.mp h2
          exact ⟨e', List.mem_cons_of_mem e he', hm'⟩
        · intro _; trivial
      | ok ks' =>
        simp only [h2]
        constructor
        · intro hcontra; simp at hcontra
        · rintro ⟨e', he', hm'⟩
          rcases List.mem_cons.mp he' with rfl | he''
          · rw [h1] at hm'; simp at hm'
          · exfalso
            have hbad : getAllScan p rest = .error .errBadPattern :=
              ih.mpr ⟨e', he'', hm'⟩
            rw [h2] at hbad
            simp at hbad

theorem getAllScan_isOk_iff {p : GoStr} {m : List (GoStr × KVPair)} :
    (∃ ks, getAllScan p m = .ok ks) ↔ ∀ e ∈ m, Match p e.2.Key ≠ none := by
  induction m with
  | nil =>
    constructor
    · intro _ e he; simp at he
    · intro _; exact ⟨[], rfl⟩
  | cons e rest ih =>
    rw [getAllScan]
    cases h1 : Match p e.2.Key with
    | none =>
      simp only [h1]
      constructor
      · rintro ⟨ks, hks⟩; simp at hks
      · intro hall
        exact absurd h1 (hall e (List.mem_cons_self e rest))
    | some b =>
      simp only [h1]
      cases h2 : getAllScan p rest with
      | error err' =>
        simp only [h2]
        constructor
        · rintro ⟨ks, hks⟩; simp at hks
        · intro hall
          obtain ⟨ks, hks⟩ := ih.mpr (fun e' he' => hall e' (List.mem_cons_of_mem e he'))
          rw [h2] at hks
          simp at hks
      | ok ks' =>
        simp only [h2]
        constructor
        · intro _ e' he'
          rcases List.mem_cons.mp he' with rfl | he''
          · rw [h1]; simp
          · exact ih.mp ⟨ks', h2⟩ e' he''
        · intro _
          exact ⟨if b then e.2 :: ks' else ks', rfl⟩

/-- C2: whenever `GetAll(pattern)` succeeds, it returns exactly the records
whose key matches `pattern` under `filepath.Match` glob semantics (as a
permutation of the matching entries of the map), sorted by key in ascending
lexicographic order. -/
theorem getAll_ok_matches_sorted (s : Store) (p : GoStr) (l : List KVPair)
    (h : s.GetAll p = .ok l) :
    List.Perm l ((s.m.map Prod.snd).filter (fun kv => decide (Match p kv.Key = some true))) ∧
    List.Sorted keyLe l := by
  unfold Store.GetAll at h
  split at h
  · simp at h
  next ks heq =>
    split at h
    · simp at h
    · simp only [Except.ok.injEq] at h
      subst h
      refine ⟨?_, List.sorted_insertionSort keyLe ks⟩
      rw [← getAllScan_ok heq]
      exact List.perm_insertionSort keyLe ks

/-- Witness for C2: the spec's example, keys `/a/2`, `/a/1`, `/a/3` under
pattern `/a/*`. -/
theorem getAll_ok_matches_sorted_witness :
    exStoreA.GetAll (str "/a/*") = .ok exRecsA ∧
    List.Perm exRecsA ((exStoreA.m.map Prod.snd).filter
      (fun kv => decide (Match (str "/a/*") kv.Key = some true))) ∧
    List.Sorted keyLe exRecsA :=
  ⟨rfl,
    (getAll_ok_matches_sorted exStoreA (str "/a/*") exRecsA rfl).1,
    (getAll_ok_matches_sorted exStoreA (str "/a/*") exRecsA rfl).2⟩

/-- `Match` with the malformed pattern `"["` (unterminated character class)
reports `ErrBadPattern` whatever the name is. -/
theorem match_lbracket_bad (name : GoStr) : Match (str "[") name = none := by
  simp [Match, str, matchFuel, scanChunk, scanStars, scanChunkAux, matchChunkFuel,
    matchRangesFuel, getEsc]

/-- C3 counterexample: on the empty store, `GetAll("[")` fails with
`ErrNoMatch`, not `ErrBadPattern`, because the scan never invokes the
matcher on any key. -/
theorem getAll_empty_store_bad_pattern_counterexample :
    New.GetAll (str "[") = .error .errNoMatch ∧
    (GoErr.errNoMatch ≠ GoErr.errBadPattern) := ⟨rfl, by decide⟩

theorem getAll_badPattern_iff (s : Store) (p : GoStr) :
    s.GetAll p = .error .errBadPattern ↔ ∃ e ∈ s.m, Match p e.2.Key = none := by
  rw [← getAllScan_error_iff]
  unfold Store.GetAll
  split
  next err heq => rw [heq]
  next ks heq =>
    rw [heq]
    split <;> simp

/-- C3 amended: `GetAll` fails with `ErrBadPattern` exactly when the matcher
reports a pattern error on at least one stored key (so on a non-empty store
`GetAll("[")` always does); it fails with `ErrNoMatch` exactly when every
stored key is tested without error and none matches (in particular always on
the empty store); and these are its only failure modes. -/
theorem getAll_failure_modes (s : Store) (p : GoStr) :
    (s.GetAll p = .error .errBadPattern ↔ ∃ e ∈ s.m, Match p e.2.Key = none) ∧
    (s.GetAll p = .error .errNoMatch ↔ ∀ e ∈ s.m, Match p e.2.Key = some false) ∧
    (∀ err, s.GetAll p = .error err → err = .errBadPattern ∨ err = .errNoMatch) ∧
    (s.m ≠ [] → s.GetAll (str "[") = .error .errBadPattern) := by
  refine ⟨getAll_badPattern_iff s p, ?_, ?_, ?_⟩
  · unfold Store.GetAll
    split
    next err heq =>
      have herr := getAllScan_error_eq heq
      subst herr
      constructor
      · intro hh; simp at hh
      · intro hall
        exfalso
        obtain ⟨ks, hks⟩ :=
          (getAllScan_isOk_iff (p := p) (m := s.m)).mpr (fun e he => by simp [hall e he])
        rw [heq] at hks
        simp at hks
    next ks heq =>
      split
      next hlen =>
        rw [List.length_eq_zero] at hlen
        subst hlen
        have hks := getAllScan_ok heq
        constructor
        · intro _ e he
          have hnn := (getAllScan_isOk_iff (p := p) (m := s.m)).mp ⟨[], heq⟩ e he
          cases h1 : Match p e.2.Key with
          | none => exact absurd h1 hnn
          | some b =>
            cases b with
            | false => rfl
            | true =>
              exfalso
              have hmem : e.2 ∈ ([] : List KVPair) := by
                rw [hks]
                exact List.mem_filter.mpr ⟨List.mem_map_of_mem Prod.snd he, by simp [h1]⟩
              simp at hmem
        · intro _; rfl
      next hlen =>
        constructor
        · intro hh; simp at hh
        · intro hall
          exfalso
          apply hlen
          rw [getAllScan_ok heq, List.length_eq_zero, List.filter_eq_nil_iff]
          intro kv hkv
          obtain ⟨e, he, rfl⟩ := List.mem_map.mp hkv
          simp [hall e he]
  · intro err herr
    unfold Store.GetAll at herr
    split at herr
    next err' heq =>
      cases herr
      exact .inl (getAllScan_error_eq heq)
    next ks heq =>
      split at herr
      · cases herr
        exact .inr rfl
      · exact absurd herr (by simp)
  · intro hne
    cases hm : s.m with
    | nil => exact absurd hm hne
    | cons e rest =>
      have : ∃ e' ∈ s.m, Match (str "[") e'.2.Key = none :=
        ⟨e, by rw [hm]; exact List.mem_cons_self e rest, match_lbracket_bad _⟩
      exact (getAll_badPattern_iff s (str "[")).mpr this

/-- Witness for C3 at a concrete input: a one-entry store, pattern `"["`. -/
theorem getAll_failure_modes_witness :
    (New.Set (str "/x") (str "v")).m ≠ [] ∧
    (New.Set (str "/x") (str "v")).GetAll (str "[") = .error .errBadPattern :=
  ⟨by decide,
    (getAll_failure_modes (New.Set (str "/x") (str "v")) (str "[")).2.2.2 (by decide)⟩

/-- C8: `GetAllValues` fails exactly when `GetAll` fails and with the same
error; on success it returns the values of the matching records in the same
ascending key-sorted order; on any failure it returns the empty sequence
(an empty container, not an absent one) alongside the error. -/
theorem getAllValues_spec (s : Store) (p : GoStr) :
    (∀ err, (s.GetAllValues p).2 = some err ↔ s.GetAll p = .error err) ∧
    (∀ l, s.GetAll p = .ok l →
      s.GetAllValues p = (l.map (fun kv => kv.Value), none)) ∧
    (∀ err, (s.GetAllValues p).2 = some err → (s.GetAllValues p).1 = []) := by
  refine ⟨?_, ?_, ?_⟩
  · intro err
    unfold Store.GetAllValues
    cases h : s.GetAll p with
    | error e' => simp [h]
    | ok ks => simp [h]
  · intro l hl
    unfold Store.GetAllValues
    rw [hl]
  · intro err
    unfold Store.GetAllValues
    cases h : s.GetAll p with
    | error e' => simp
    | ok ks => simp

/-- Witness for C8: `exStoreA` with pattern `/a/*`, whose `GetAll` result is
`exRecsA`. -/
theorem getAllValues_spec_witness :
    exStoreA.GetAllValues (str "/a/*") = (exRecsA.map (fun kv => kv.Value), none) :=
  (getAllValues_spec exStoreA (str "/a/*")).2.1 exRecsA rfl

theorem listScan_eq {path : GoStr} {m : List (GoStr × KVPair)}
    (hnp : ∀ e ∈ m, e.2.Key ≠ path) :
    listScan path m = some ((m.filter (fun e => path.isPrefixOf e.2.Key)).map
      (fun e => firstSegAfterSkip path e.2.Key)) := by
  induction m with
  | nil => rfl
  | cons e rest ih =>
    have hrest := ih (fun e' he' => hnp e' (List.mem_cons_of_mem e he'))
    by_cases hp : path.isPrefixOf e.2.Key
    · have hpfx : path <+: e.2.Key := by
        rw [← List.isPrefixOf_iff_prefix]
        exact hp
      obtain ⟨t, ht⟩ := hpfx
      have hkeyne : e.2.Key ≠ path := hnp e (List.mem_cons_self e rest)
      have htne : t ≠ [] := by
        rintro rfl
        rw [List.append_nil] at ht
        exact hkeyne ht.symm
      have hdrop : e.2.Key.drop path.length = t := by
        rw [← ht, List.drop_left]
      have htrim : trimPrefix e.2.Key path = t := by
        rw [trimPrefix, if_pos hp, hdrop]
      cases t with
      | nil => exact absurd rfl htne
      | cons c t' =>
        have hdrop1 : e.2.Key.drop (path.length + 1) = t' := by
          rw [← List.drop_drop, hdrop]
          simp
        simp only [listScan, if_pos hp, htrim, hrest]
        simp [firstSegAfterSkip, splitN2first, hdrop, hdrop1,
          List.filter_cons_of_pos, hp]
    · simp only [listScan, if_neg hp, hrest]
      rw [List.filter_cons_of_neg]
      simp [hp]

/-- C4 amended: provided no stored key equals `path` (with a key equal to
`path` the Go code panics instead), `List(path)` returns exactly the distinct
first segments of the keys having `path` as a literal prefix — strip the
prefix, skip exactly one character, keep everything before the first
remaining `/` — deduplicated and sorted lexicographically ascending. -/
theorem list_spec (s : Store) (path : GoStr)
    (hnp : ∀ e ∈ s.m, e.2.Key ≠ path) :
    ∃ l, s.List path = some l ∧ List.Sorted (fun a b : GoStr => a ≤ b) l ∧ l.Nodup ∧
      (∀ x, x ∈ l ↔ ∃ e ∈ s.m, path.isPrefixOf e.2.Key ∧
        x = firstSegAfterSkip path e.2.Key) := by
  refine ⟨sortStrings (((s.m.filter (fun e => path.isPrefixOf e.2.Key)).map
      (fun e => firstSegAfterSkip path e.2.Key)).dedup), ?_, ?_, ?_, ?_⟩
  · rw [Store.List, listScan_eq hnp]
    rfl
  · exact List.sorted_insertionSort _ _
  · exact ((List.perm_insertionSort _ _).nodup_iff).mpr (List.nodup_dedup _)
  · intro x
    rw [sortStrings, List.mem_insertionSort, List.mem_dedup]
    constructor
    · intro hx
      obtain ⟨e, he, hfe⟩ := List.mem_map.mp hx
      obtain ⟨he', hp⟩ := List.mem_filter.mp he
      exact ⟨e, he', hp, hfe.symm⟩
    · rintro ⟨e, he, hp, rfl⟩
      exact List.mem_map_of_mem _ (List.mem_filter.mpr ⟨he, hp⟩)

/-- Witness for C4: the spec's example store under path `/app`. -/
theorem list_spec_witness :
    (∀ e ∈ exStoreB.m, e.2.Key ≠ str "/app") ∧
    (∃ l, exStoreB.List (str "/app") = some l ∧
      List.Sorted (fun a b : GoStr => a ≤ b) l ∧ l.Nodup ∧
      (∀ x, x ∈ l ↔ ∃ e ∈ exStoreB.m, (str "/app").isPrefixOf e.2.Key ∧
        x = firstSegAfterSkip (str "/app") e.2.Key)) :=
  ⟨by decide, list_spec exStoreB (str "/app") (by decide)⟩

/-- C4 counterexample: with key `/a` present and `path = "/a"` the code does
not return the described sequence — `strippedKey[1:]` panics on the empty
remainder, modelled as `none`. -/
theorem list_counterexample_key_eq_path :
    (New.Set (str "/a") (str "v")).List (str "/a") = none := rfl

/-- C5: failing input for the no-failure claim — when some key equals `path`,
`List` and `ListDir` panic in Go (`strippedKey[1:]` is a slice-bounds
violation when `strippedKey` is empty), instead of returning a sequence. -/
theorem list_listDir_panic_on_exact_key :
    (New.Set (str "/app") (str "v")).List (str "/app") = none ∧
    (New.Set (str "/app") (str "v")).ListDir (str "/app") = none := ⟨rfl, rfl⟩

theorem listDirScan_eq {path : GoStr} {m : List (GoStr × KVPair)}
    (hnp : ∀ e ∈ m, e.2.Key ≠ path) :
    listDirScan path m = some ((m.filter (fun e => path.isPrefixOf e.2.Key &&
        ((e.2.Key.drop path.length).drop 1).contains sep)).map
      (fun e => firstSegAfterSkip path e.2.Key)) := by
  induction m with
  | nil => rfl
  | cons e rest ih =>
    have hrest := ih (fun e' he' => hnp e' (List.mem_cons_of_mem e he'))
    by_cases hp : path.isPrefixOf e.2.Key
    · have hpfx : path <+: e.2.Key := by
        rw [← List.isPrefixOf_iff_prefix]
        exact hp
      obtain ⟨t, ht⟩ := hpfx
      have hkeyne : e.2.Key ≠ path := hnp e (List.mem_cons_self e rest)
      have htne : t ≠ [] := by
        rintro rfl
        rw [List.append_nil] at ht
        exact hkeyne ht.symm
      have hdrop : e.2.Key.drop path.length = t := by
        rw [← ht, List.drop_left]
      have htrim : trimPrefix e.2.Key path = t := by
        rw [trimPrefix, if_pos hp, hdrop]
      cases t with
      | nil => exact absurd rfl htne
      | cons c t' =>
        have hdrop1 : e.2.Key.drop (path.length + 1) = t' := by
          rw [← List.drop_drop, hdrop]
          simp
        simp only [listDirScan, if_pos hp, htrim, hrest]
        by_cases hc : t'.contains sep
        · rw [if_pos hc, List.filter_cons_of_pos]
          · simp [firstSegAfterSkip, splitN2first, hdrop, hdrop1]
          · have hd1 : List.drop 1 (List.drop path.length e.2.Key) = t' := by
              rw [hdrop]
              rfl
            simpa [hp, hd1] using hc
        · rw [if_neg hc, List.filter_cons_of_neg]
          have hd1 : List.drop 1 (List.drop path.length e.2.Key) = t' := by
            rw [hdrop]
            rfl
          simp only [Bool.and_eq_true, not_and, hd1]
          intro _
          exact hc
    · simp only [listDirScan, if_neg hp, hrest]
      rw [List.filter_cons_of_neg]
      simp [hp]

/-- C6 amended: provided no stored key equals `path` (with a key equal to
`path` the Go code panics, so the error-free contract fails there),
`ListDir(path)` returns exactly the elements of `List(path)` that some key
witnesses with a further `/` in its remainder after
prefix-stripping-and-one-character-skip, with the same sorted, deduplicated
result shape. -/
theorem listDir_spec (s : Store) (path : GoStr)
    (hnp : ∀ e ∈ s.m, e.2.Key ≠ path) :
    ∃ l ld, s.List path = some l ∧ s.ListDir path = some ld ∧
      List.Sorted (fun a b : GoStr => a ≤ b) ld ∧ ld.Nodup ∧
      (∀ x, x ∈ ld ↔ (x ∈ l ∧ ∃ e ∈ s.m, path.isPrefixOf e.2.Key ∧
        ((e.2.Key.drop path.length).drop 1).contains sep ∧
        x = firstSegAfterSkip path e.2.Key)) := by
  obtain ⟨l, hl, _, _, hmem⟩ := list_spec s path hnp
  refine ⟨l, sortStrings (((s.m.filter (fun e => path.isPrefixOf e.2.Key &&
      ((e.2.Key.drop path.length).drop 1).contains sep)).map
      (fun e => firstSegAfterSkip path e.2.Key)).dedup), hl, ?_, ?_, ?_, ?_⟩
  · rw [Store.ListDir, listDirScan_eq hnp]
    rfl
  · exact List.sorted_insertionSort _ _
  · exact ((List.perm_insertionSort _ _).nodup_iff).mpr (List.nodup_dedup _)
  · intro x
    rw [sortStrings, List.mem_insertionSort, List.mem_dedup]
    constructor
    · intro hx
      obtain ⟨e, he, hfe⟩ := List.mem_map.mp hx
      obtain ⟨he', hpc⟩ := List.mem_filter.mp he
      obtain ⟨hp, hc⟩ := Bool.and_eq_true_iff.mp hpc
      exact ⟨hmem x |>.mpr ⟨e, he', hp, hfe.symm⟩, e, he', hp, hc, hfe.symm⟩
    · rintro ⟨-, e, he, hp, hc, rfl⟩
      exact List.mem_map_of_mem _
        (List.mem_filter.mpr ⟨he, Bool.and_eq_true_iff.mpr ⟨hp, hc⟩⟩)

/-- Witness for C6: the spec's example store under path `/app`
(`standalone` is in `List` but not in `ListDir`). -/
theorem listDir_spec_witness :
    (∀ e ∈ exStoreB.m, e.2.Key ≠ str "/app") ∧
    (∃ l ld, exStoreB.List (str "/app") = some l ∧
      exStoreB.ListDir (str "/app") = some ld ∧
      List.Sorted (fun a b : GoStr => a ≤ b) ld ∧ ld.Nodup ∧
      (∀ x, x ∈ ld ↔ (x ∈ l ∧ ∃ e ∈ exStoreB.m, (str "/app").isPrefixOf e.2.Key ∧
        ((e.2.Key.drop (str "/app").length).drop 1).contains sep ∧
        x = firstSegAfterSkip (str "/app") e.2.Key))) :=
  ⟨by decide, listDir_spec exStoreB (str "/app") (by decide)⟩

/-- C6 counterexample: the "error-free contract" fails when a key equals
`path` — `ListDir` panics (modelled as `none`). -/
theorem listDir_counterexample_key_eq_path :
    (New.Set (str "/b") (str "v")).ListDir (str "/b") = none := rfl

end Memkv
